import Mathlib

/-!
Shallow embedding of `task_lomtev_pavel_inverted_index.py` (HW03): an
inverted index with `build_inverted_index`, `InvertedIndex.query`, and the
two serialization strategies of `InvertedIndex.dump` / `InvertedIndex.load`
("json" and "struct").

Modelling conventions:
* Python `dict` values are association lists in insertion order; `dict`
  assignment is `dictInsert` (overwrite in place, append for a new key).
* Python `set` values are duplicate-free lists in insertion order; only
  membership of a set is observable in the verified statements.
* Byte streams are `List Nat` (one entry per byte).  Text is converted to
  bytes char-by-char via `Char.toNat`; the indexed terms reachable in the
  theorems consist of ASCII word characters, for which this agrees with
  UTF-8.
* Exceptions that propagate out of a method are `Except.error`; a normal
  return is `Except.ok`.  Messages printed to stderr are returned alongside
  the result by the file-level wrappers.
-/

namespace InvIdx

/-- Word characters of the regex `\W+` split in `build_inverted_index`
(ASCII fragment of Python's `\w`: letters, digits, underscore). -/
def isWordChar (c : Char) : Bool := c.isAlphanum || c == '_'

/-- One-pass splitter for `re.split(r"\W+", value)`.  `acc` holds the
characters of the token being read (reversed); `inSep` records whether the
scan is inside a run of non-word characters.  A token is emitted when a
separator run starts, and a final (possibly empty) token at end of input. -/
def splitAux (l : List Char) (acc : List Char) (inSep : Bool) : List (List Char) :=
  match l with
  | [] => if inSep then [[]] else [acc.reverse]
  | c :: cs =>
    if isWordChar c then
      if inSep then splitAux cs [c] false else splitAux cs (c :: acc) false
    else
      if inSep then splitAux cs [] true else acc.reverse :: splitAux cs [] true

/-- Models `re.split(r"\W+", value)`: split on maximal runs of non-word
characters, keeping the (possibly empty) pieces between and around them
(`re.split` yields an empty string at each boundary separator run and for
empty input). -/
def splitWords (l : List Char) : List (List Char) := splitAux l [] false

/-- The terms of one document's text, as strings. -/
def tokens (s : String) : List String := (splitWords s.data).map String.mk

/-- Python dict lookup (`m[k]` / `m.get(k)`); association list searched from
the front (keys are unique in every dict the code builds). -/
def dictGet {β : Type} (m : List (String × β)) (k : String) : Option β :=
  match m with
  | [] => none
  | (k', v) :: r => if k' = k then some v else dictGet r k

/-- Python dict assignment `m[k] = v`: overwrite in place if the key exists,
append a new binding otherwise. -/
def dictInsert {β : Type} (m : List (String × β)) (k : String) (v : β) :
    List (String × β) :=
  match m with
  | [] => [(k, v)]
  | (k', v') :: r => if k' = k then (k, v) :: r else (k', v') :: dictInsert r k v

/-- Python `set.add`: insert if absent (sets modelled as dedup lists). -/
def setAdd (l : List Nat) (x : Nat) : List Nat := if x ∈ l then l else l ++ [x]

/-- Python `set(l)`: deduplicate a list. -/
def pySet (l : List Nat) : List Nat := l.foldl setAdd []

/-- Python `set.intersection`. -/
def interSet (a b : List Nat) : List Nat := a.filter (· ∈ b)

/-- `class InvertedIndex`: wraps the term → posting-list dict. -/
structure InvertedIndex where
  inverted_index : List (String × List Nat)
deriving Repr, DecidableEq

/-- One iteration of the inner loop of `build_inverted_index`: insert `key`
into `word`'s posting set, creating the set if the word is new. -/
def addPost (m : List (String × List Nat)) (word : String) (key : Nat) :
    List (String × List Nat) :=
  match dictGet m word with
  | some l => dictInsert m word (setAdd l key)
  | none => dictInsert m word (setAdd [] key)

/-- `build_inverted_index(documents)`: for each document, split its text on
`\W+` and add its id to every token's posting set.  The final
set-to-list conversion is the identity here (sets are already lists). -/
def build_inverted_index (documents : List (Nat × String)) : InvertedIndex :=
  ⟨documents.foldl
    (fun m kv => (tokens kv.2).foldl (fun m' w => addPost m' w kv.1) m) []⟩

/-- The contribution of one query word in `InvertedIndex.query`:
`set(get(word))` when the word is present with a non-empty posting list,
`set()` otherwise. -/
def contrib (ii : InvertedIndex) (word : String) : List Nat :=
  match dictGet ii.inverted_index word with
  | some l => if l.length > 0 then pySet l else []
  | none => []

/-- `InvertedIndex.query(words)`: for a non-empty word list, fold
`set.intersection` over the per-word contributions (Python's `reduce` with
no initializer); otherwise return `[]`.  The `isinstance(words, list)` guard
is always true in the typed model. -/
def query (ii : InvertedIndex) (words : List String) : List Nat :=
  match words with
  | [] => []
  | w :: ws => (ws.map (contrib ii)).foldl interSet (contrib ii w)

/-- Posting list of a term as seen through `get` with a `[]` default;
used only to state the query theorems. -/
def postingOf (ii : InvertedIndex) (t : String) : List Nat :=
  (dictGet ii.inverted_index t).getD []


/-! ### Serialization codec (dump/load)

`json.dump`/`json.load` and the `json.dumps`-encoded struct header are
modelled character-exactly for the value shapes this program serializes
(objects mapping strings to integer arrays, arrays of `[string, int]`
pairs) with `json.dumps`'s default separators.  String escaping is not
modelled: every term the program indexes consists of word characters, which
need no escapes.  Byte streams are `List Nat`; text becomes bytes via
`Char.toNat` (exact for the ASCII text reachable here). -/

/-- Decimal digit character (`48 + d` for `d < 10`). -/
def digitChar (d : Nat) : Char := Char.ofNat (48 + d)

/-- Decimal digits of `n`, most significant first, via fuel recursion
(`fuel > n` suffices). -/
def toDecAux : Nat → Nat → List Char → List Char
  | 0, _, acc => acc
  | fuel + 1, n, acc =>
    if n < 10 then digitChar n :: acc
    else toDecAux fuel (n / 10) (digitChar (n % 10) :: acc)

/-- The decimal rendering of a natural number (what `json.dumps` prints for
a Python int). -/
def toDec (n : Nat) : List Char := toDecAux (n + 1) n []

/-- Parse a maximal run of decimal digits (the JSON number grammar
restricted to the non-negative integers this program writes). -/
def parseNat (l : List Char) : Option (Nat × List Char) :=
  let ds := l.takeWhile Char.isDigit
  if ds.isEmpty then none
  else some (ds.foldl (fun a c => a * 10 + (c.toNat - 48)) 0, l.dropWhile Char.isDigit)

/-- `json.dumps` rendering of a string that needs no escapes. -/
def encodeStr (s : String) : List Char := '"' :: s.data ++ ['"']

/-- Consume one expected character. -/
def expectChar (c : Char) (l : List Char) : Option (List Char) :=
  match l with
  | c' :: r => if c' = c then some r else none
  | [] => none

/-- Parse a JSON string without escapes: an opening quote, characters up to
the next quote, and the closing quote. -/
def parseStr (l : List Char) : Option (String × List Char) :=
  match expectChar '"' l with
  | some r =>
    match r.dropWhile (fun ch => !(ch == '"')) with
    | _ :: r2 => some (String.mk (r.takeWhile (fun ch => !(ch == '"'))), r2)
    | [] => none
  | none => none

/-- The elements of a container after the first, each preceded by the
`", "` separator `json.dumps` uses by default. -/
def encodeListRest {α : Type} (enc : α → List Char) : List α → List Char
  | [] => []
  | x :: xs => ',' :: ' ' :: (enc x ++ encodeListRest enc xs)

/-- Comma-separated rendering of the elements of a container. -/
def encodeBody {α : Type} (enc : α → List Char) : List α → List Char
  | [] => []
  | x :: xs => enc x ++ encodeListRest enc xs

/-- `json.dumps` rendering of a list. -/
def encodeArr {α : Type} (enc : α → List Char) (xs : List α) : List Char :=
  '[' :: encodeBody enc xs ++ [']']

/-- Parse the remaining elements of a container up to the closing
character; `fuel` bounds the number of iterations. -/
def parseItems {α : Type} (p : List Char → Option (α × List Char))
    (closeCh : Char) : Nat → List α → List Char → Option (List α × List Char)
  | 0, _, _ => none
  | fuel + 1, acc, l =>
    match l with
    | [] => none
    | c :: r =>
      if c = closeCh then some (acc.reverse, r)
      else if c = ',' then
        match expectChar ' ' r with
        | some r2 =>
          match p r2 with
          | some (x, r3) => parseItems p closeCh fuel (x :: acc) r3
          | none => none
        | none => none
      else none

/-- Parse a delimited container (`[...]` or `{...}`) of `p`-elements. -/
def parseContainer {α : Type} (p : List Char → Option (α × List Char))
    (openCh closeCh : Char) (l : List Char) : Option (List α × List Char) :=
  match expectChar openCh l with
  | some r =>
    match r with
    | c2 :: r2 =>
      if c2 = closeCh then some ([], r2)
      else
        match p r with
        | some (x, r3) => parseItems p closeCh (r3.length + 1) [x] r3
        | none => none
    | [] => none
  | none => none

/-- `json.dumps` rendering of one `(term, count)` pair of the struct
header (Python tuples render as JSON arrays). -/
def encodePair (kv : String × Nat) : List Char :=
  '[' :: (encodeStr kv.1 ++ ',' :: ' ' :: toDec kv.2) ++ [']']

/-- Parse one `[string, int]` pair of the struct header. -/
def parsePair (l : List Char) : Option ((String × Nat) × List Char) :=
  match expectChar '[' l with
  | some r =>
    match parseStr r with
    | some (k, r1) =>
      match expectChar ',' r1 with
      | some ra =>
        match expectChar ' ' ra with
        | some r2 =>
          match parseNat r2 with
          | some (n, r3) =>
            match expectChar ']' r3 with
            | some r4 => some ((k, n), r4)
            | none => none
          | none => none
        | none => none
      | none => none
    | none => none
  | none => none

/-- `json.loads` of the struct header: the whole text must be one JSON
array of `[string, int]` pairs. -/
def parseHeaderFull (l : List Char) : Option (List (String × Nat)) :=
  match parseContainer parsePair '[' ']' l with
  | some (ps, []) => some ps
  | _ => none

/-- `json.dumps` rendering of one `"term": [ids]` entry of the index
object. -/
def encodeEntry (kv : String × List Nat) : List Char :=
  encodeStr kv.1 ++ ':' :: ' ' :: encodeArr toDec kv.2

/-- `json.dumps` rendering of the whole index dict. -/
def encodeDict (entries : List (String × List Nat)) : List Char :=
  '{' :: encodeBody encodeEntry entries ++ ['}']

/-- Parse one `"term": [ids]` entry. -/
def parseEntry (l : List Char) : Option ((String × List Nat) × List Char) :=
  match parseStr l with
  | some (k, r1) =>
    match expectChar ':' r1 with
    | some ra =>
      match expectChar ' ' ra with
      | some r2 =>
        match parseContainer parseNat '[' ']' r2 with
        | some (ids, r3) => some ((k, ids), r3)
        | none => none
      | none => none
    | none => none
  | none => none

/-- `json.load` of the index file: one JSON object, later keys overwriting
earlier ones as in a Python dict. -/
def parseDictFull (l : List Char) : Option (List (String × List Nat)) :=
  match parseContainer parseEntry '{' '}' l with
  | some (es, []) => some (es.foldl (fun m e => dictInsert m e.1 e.2) [])
  | _ => none

/-- Text to bytes, one byte per character (exact for ASCII). -/
def strToBytes (s : List Char) : List Nat := s.map Char.toNat

/-- Bytes back to text. -/
def bytesToStr (bs : List Nat) : List Char := bs.map Char.ofNat

/-- `struct.pack("I", n)`: four little-endian bytes. -/
def u32le (n : Nat) : List Nat :=
  [n % 256, n / 256 % 256, n / 65536 % 256, n / 16777216 % 256]

/-- `struct.unpack("I", ...)`: recombine four little-endian bytes. -/
def u32dec (b0 b1 b2 b3 : Nat) : Nat :=
  b0 + 256 * b1 + 65536 * b2 + 16777216 * b3

/-- `struct.pack("H", n)`: two little-endian bytes. -/
def u16le (n : Nat) : List Nat := [n % 256, n / 256]

/-- `struct.unpack(f"{n}H", ...)`: recombine consecutive byte pairs. -/
def dec16 : List Nat → List Nat
  | b0 :: b1 :: r => (b0 + 256 * b1) :: dec16 r
  | _ => []

/-- The byte stream of one posting list in the struct body. -/
def flat16 (ids : List Nat) : List Nat := (ids.map u16le).flatten

/-- Exceptions that can propagate out of `dump`/`load`: `struct.error`
from `pack`/`unpack`, and the `ValueError` of `json.loads` on a malformed
header or file.  (`FileNotFoundError` is caught by the methods themselves
and never propagates.) -/
inductive Err
  | structError
  | jsonError
deriving Repr, DecidableEq

/-- The `strategy == "struct"` branch of `InvertedIndex.dump`, given an
opened destination: build the `(term, count)` pairs and the flattened id
stream, then write the packed 4-byte header length, the header bytes, and
the ids as unsigned 16-bit values.  `struct.pack("I", size)` raises
`struct.error` when the header length needs more than 32 bits, and
`struct.pack(f"{n}H", *doc_ids)` raises when any id needs more than 16
bits; both checks happen in that order. -/
def dumpStruct (entries : List (String × List Nat)) : Except Err (List Nat) :=
  let pairs := entries.map (fun kv => (kv.1, kv.2.length))
  let doc_ids := (entries.map (fun kv => kv.2)).flatten
  let header := strToBytes (encodeArr encodePair pairs)
  if header.length < 4294967296 then
    if doc_ids.all (fun i => i < 65536) then
      .ok (u32le header.length ++ header ++ (doc_ids.map u16le).flatten)
    else .error .structError
  else .error .structError

/-- The `strategy == "json"` branch of `InvertedIndex.dump`:
`json.dump(self.inverted_index, fout)`. -/
def dumpJson (entries : List (String × List Nat)) : Except Err (List Nat) :=
  .ok (strToBytes (encodeDict entries))

/-- `InvertedIndex.dump(filepath, strategy)` given an opened destination;
any other strategy writes nothing and returns normally. -/
def dump (ii : InvertedIndex) (strategy : String) : Except Err (List Nat) :=
  if strategy = "json" then dumpJson ii.inverted_index
  else if strategy = "struct" then dumpStruct ii.inverted_index
  else .ok []

/-- The per-term loop of the struct branch of `InvertedIndex.load`: for
each `(term, count)` header pair read `2 * count` bytes (a short read makes
`struct.unpack` raise `struct.error`) and assign the decoded ids into the
dict. -/
def readIds (acc : List (String × List Nat)) :
    List (String × Nat) → List Nat → Except Err (List (String × List Nat))
  | [], _ => .ok acc
  | (k, c) :: ps, body =>
    if 2 * c ≤ body.length then
      readIds (dictInsert acc k (dec16 (body.take (2 * c)))) ps (body.drop (2 * c))
    else .error .structError

/-- The struct branch of `InvertedIndex.load` on the file's bytes: unpack
the 4-byte header length (short file: `struct.error`), read exactly that
many header bytes (short read: `struct.error`), `json.loads` the header,
then read each term's ids.  Trailing bytes after the last posting are
ignored, as in the source. -/
def loadStruct (bs : List Nat) : Except Err InvertedIndex :=
  match bs with
  | b0 :: b1 :: b2 :: b3 :: rest =>
    let hsize := u32dec b0 b1 b2 b3
    if hsize ≤ rest.length then
      match parseHeaderFull (bytesToStr (rest.take hsize)) with
      | some pairs => (readIds [] pairs (rest.drop hsize)).map (fun m => (⟨m⟩ : InvertedIndex))
      | none => .error .jsonError
    else .error .structError
  | _ => .error .structError

/-- The json branch of `InvertedIndex.load`: `json.load(fin)`. -/
def loadJson (bs : List Nat) : Except Err InvertedIndex :=
  match parseDictFull (bytesToStr bs) with
  | some es => .ok ⟨es⟩
  | none => .error .jsonError

/-- `InvertedIndex.load(filepath, strategy)` on the file's bytes: the
`"json"` strategy parses JSON, every other strategy takes the struct
branch (the source's `else`). -/
def load (bs : List Nat) (strategy : String) : Except Err InvertedIndex :=
  if strategy = "json" then loadJson bs else loadStruct bs

/-- `InvertedIndex.load` at file level: a missing source
(`FileNotFoundError`) is caught, `f"{filepath} not found!"` is printed to
stderr, and an empty index is returned as a normal result.  Exceptions from
the strategies propagate.  The second component is the stderr output. -/
def load_file (filepath : String) (file? : Option (List Nat))
    (strategy : String) : Except Err InvertedIndex × List String :=
  match file? with
  | none => (.ok ⟨[]⟩, [filepath ++ " not found!"])
  | some bs => (load bs strategy, [])

/-- `InvertedIndex.dump` at file level: when the destination cannot be
opened, the `except (FileNotFoundError, TypeError)` clause prints
`"Input valid filepath"` to stderr and returns normally with nothing
written (`none`).  With an open destination the strategy result is the
written byte stream; a `struct.error` propagates.  For any other strategy
no branch runs and nothing is written. -/
def dump_file (canOpen : Bool) (ii : InvertedIndex) (strategy : String) :
    Except Err (Option (List Nat)) × List String :=
  if strategy = "json" ∨ strategy = "struct" then
    if canOpen then
      match dump ii strategy with
      | .ok bs => (.ok (some bs), [])
      | .error e => (.error e, [])
    else (.ok none, ["Input valid filepath"])
  else (.ok none, [])

end InvIdx

namespace InvIdx

/-! ### Query engine lemmas -/

theorem mem_setAdd {l : List Nat} {x y : Nat} :
    x ∈ setAdd l y ↔ x ∈ l ∨ x = y := by
  unfold setAdd
  split <;> rename_i h
  · constructor
    · exact Or.inl
    · rintro (hx | rfl) <;> [exact hx; exact h]
  · simp [List.mem_append]

theorem nodup_setAdd {l : List Nat} (h : l.Nodup) (y : Nat) :
    (setAdd l y).Nodup := by
  unfold setAdd
  split
  · exact h
  · rename_i hy
    simpa [List.nodup_append] using ⟨h, by simpa using hy⟩

theorem mem_foldl_setAdd (l acc : List Nat) (x : Nat) :
    x ∈ l.foldl setAdd acc ↔ x ∈ acc ∨ x ∈ l := by
  induction l generalizing acc with
  | nil => simp
  | cons a as ih => rw [List.foldl_cons, ih, mem_setAdd, List.mem_cons]; tauto

theorem nodup_foldl_setAdd (l : List Nat) {acc : List Nat} (h : acc.Nodup) :
    (l.foldl setAdd acc).Nodup := by
  induction l generalizing acc with
  | nil => exact h
  | cons a as ih => exact ih (nodup_setAdd h a)

theorem mem_pySet {l : List Nat} {x : Nat} : x ∈ pySet l ↔ x ∈ l := by
  unfold pySet; rw [mem_foldl_setAdd]; simp

theorem nodup_pySet (l : List Nat) : (pySet l).Nodup :=
  nodup_foldl_setAdd l List.nodup_nil

theorem mem_interSet {a b : List Nat} {x : Nat} :
    x ∈ interSet a b ↔ x ∈ a ∧ x ∈ b := by
  unfold interSet; simp

theorem nodup_interSet {a : List Nat} (h : a.Nodup) (b : List Nat) :
    (interSet a b).Nodup := h.filter _

theorem mem_contrib {ii : InvertedIndex} {w : String} {x : Nat} :
    x ∈ contrib ii w ↔ x ∈ postingOf ii w := by
  unfold contrib postingOf
  cases h : dictGet ii.inverted_index w with
  | none => simp
  | some l =>
    cases l with
    | nil => simp
    | cons a as => simp [mem_pySet]

theorem nodup_contrib (ii : InvertedIndex) (w : String) : (contrib ii w).Nodup := by
  unfold contrib
  cases dictGet ii.inverted_index w with
  | none => exact List.nodup_nil
  | some l =>
    dsimp only
    split
    · exact nodup_pySet l
    · exact List.nodup_nil

theorem mem_foldl_interSet (bs : List (List Nat)) (a : List Nat) (x : Nat) :
    x ∈ bs.foldl interSet a ↔ x ∈ a ∧ ∀ b ∈ bs, x ∈ b := by
  induction bs generalizing a with
  | nil => simp
  | cons b bs ih => rw [List.foldl_cons, ih, mem_interSet]; aesop

theorem nodup_foldl_interSet (bs : List (List Nat)) {a : List Nat} (h : a.Nodup) :
    (bs.foldl interSet a).Nodup := by
  induction bs generalizing a with
  | nil => exact h
  | cons b bs ih => exact ih (nodup_interSet h b)

theorem mem_query {ii : InvertedIndex} {w : String} {ws : List String} {x : Nat} :
    x ∈ query ii (w :: ws) ↔ ∀ t ∈ w :: ws, x ∈ postingOf ii t := by
  unfold query
  rw [mem_foldl_interSet]
  simp only [List.mem_cons, List.mem_map]
  constructor
  · rintro ⟨hw, hws⟩ t (rfl | ht)
    · exact mem_contrib.mp hw
    · exact mem_contrib.mp (hws _ ⟨t, ht, rfl⟩)
  · intro h
    refine ⟨mem_contrib.mpr (h w (Or.inl rfl)), ?_⟩
    rintro b ⟨t, ht, rfl⟩
    exact mem_contrib.mpr (h t (Or.inr ht))

theorem nodup_query (ii : InvertedIndex) (ws : List String) : (query ii ws).Nodup := by
  unfold query
  cases ws with
  | nil => exact List.nodup_nil
  | cons w ws => exact nodup_foldl_interSet _ (nodup_contrib ii w)

end InvIdx

namespace InvIdx

/-! ### Claims about the query engine -/

/-- C7: for every index `I`, `query(I, [])` with an empty terms sequence
returns the empty list, not the set of all documents. -/
theorem claim_C7_empty_query (ii : InvertedIndex) : query ii [] = [] := rfl

/-- C2: for every index and every non-empty list of terms, `query` returns
exactly the document identifiers present in the posting list of every term
(the intersection across all terms) — no extra and no missing identifiers,
and no duplicates, so only the order of the returned list is unspecified. -/
theorem claim_C2_query_is_intersection (ii : InvertedIndex) (words : List String)
    (h : words ≠ []) :
    (∀ x, x ∈ query ii words ↔ ∀ t ∈ words, x ∈ postingOf ii t) ∧
      (query ii words).Nodup := by
  cases words with
  | nil => exact absurd rfl h
  | cons w ws => exact ⟨fun x => mem_query, nodup_query ii (w :: ws)⟩

/-- Witness for C2 at a concrete index and term list. -/
theorem claim_C2_witness :
    (["b"] : List String) ≠ [] ∧
      ((∀ x, x ∈ query (build_inverted_index [(1, "a b"), (2, "b c")]) ["b"] ↔
          ∀ t ∈ ["b"], x ∈ postingOf (build_inverted_index [(1, "a b"), (2, "b c")]) t) ∧
        (query (build_inverted_index [(1, "a b"), (2, "b c")]) ["b"]).Nodup) :=
  ⟨by decide, claim_C2_query_is_intersection _ _ (by decide)⟩

/-- C8: any query whose term list contains a term that is absent from the
index — or present but mapped to an empty posting list — returns the empty
list, regardless of the other terms. -/
theorem claim_C8_unknown_term_zeroes (ii : InvertedIndex) (words : List String)
    (t : String) (ht : t ∈ words)
    (hz : dictGet ii.inverted_index t = none ∨ dictGet ii.inverted_index t = some []) :
    query ii words = [] := by
  cases words with
  | nil => rfl
  | cons w ws =>
    rw [List.eq_nil_iff_forall_not_mem]
    intro x hx
    have hmem := mem_query.mp hx t ht
    unfold postingOf at hmem
    rcases hz with h | h <;> rw [h] at hmem <;> simp at hmem

/-- Witness for C8: the term `"zzz"` is not a key of the concrete index, and
a query containing it alongside a known term returns `[]`. -/
theorem claim_C8_witness :
    ("zzz" ∈ (["a", "zzz"] : List String)) ∧
      dictGet (build_inverted_index [(1, "a b")]).inverted_index "zzz" = none ∧
      query (build_inverted_index [(1, "a b")]) ["a", "zzz"] = [] :=
  ⟨by decide, by decide,
    claim_C8_unknown_term_zeroes _ _ "zzz" (by decide) (Or.inl (by decide))⟩

end InvIdx

namespace InvIdx

/-! ### Dict and builder lemmas -/

theorem dictGet_dictInsert_self {β : Type} (m : List (String × β)) (k : String) (v : β) :
    dictGet (dictInsert m k v) k = some v := by
  induction m with
  | nil => simp [dictInsert, dictGet]
  | cons p r ih =>
    obtain ⟨k', v'⟩ := p
    by_cases h : k' = k <;> simp [dictInsert, dictGet, h, ih]

theorem dictGet_dictInsert_ne {β : Type} (m : List (String × β)) {k t : String}
    (v : β) (h : t ≠ k) : dictGet (dictInsert m k v) t = dictGet m t := by
  have hkt : ¬k = t := fun he => h he.symm
  induction m with
  | nil => simp [dictInsert, dictGet, hkt]
  | cons p r ih =>
    obtain ⟨k', v'⟩ := p
    by_cases hk : k' = k
    · subst hk
      simp [dictInsert, dictGet, hkt]
    · simp [dictInsert, dictGet, hk, ih]

theorem mem_dictInsert {β : Type} {m : List (String × β)} {k : String} {v : β}
    {p : String × β} (h : p ∈ dictInsert m k v) : p = (k, v) ∨ p ∈ m := by
  induction m with
  | nil => simpa [dictInsert] using h
  | cons q r ih =>
    obtain ⟨k', v'⟩ := q
    by_cases hk : k' = k
    · rcases (by simpa [dictInsert, hk] using h) with h' | h'
      · exact Or.inl h'
      · exact Or.inr (List.mem_cons_of_mem _ h')
    · rcases (by simpa [dictInsert, hk] using h) with h' | h'
      · exact Or.inr (by simp [h'])
      · rcases ih h' with h'' | h''
        · exact Or.inl h''
        · exact Or.inr (List.mem_cons_of_mem _ h'')

theorem dictGet_mem {β : Type} {m : List (String × β)} {k : String} {v : β}
    (h : dictGet m k = some v) : (k, v) ∈ m := by
  induction m with
  | nil => simp [dictGet] at h
  | cons q r ih =>
    obtain ⟨k', v'⟩ := q
    by_cases hk : k' = k
    · subst hk
      simp [dictGet] at h
      simp [h]
    · simp [dictGet, hk] at h
      exact List.mem_cons_of_mem _ (ih h)

theorem keys_dictInsert_of_get_some {β : Type} {m : List (String × β)} {k : String}
    {w : β} (hk : dictGet m k = some w) (v : β) :
    (dictInsert m k v).map Prod.fst = m.map Prod.fst := by
  induction m with
  | nil => simp [dictGet] at hk
  | cons q r ih =>
    obtain ⟨k', v'⟩ := q
    by_cases h : k' = k
    · subst h
      simp [dictInsert]
    · simp [dictGet, h] at hk
      simp [dictInsert, h, ih hk]

theorem keys_dictInsert_of_get_none {β : Type} {m : List (String × β)} {k : String}
    (hk : dictGet m k = none) (v : β) :
    (dictInsert m k v).map Prod.fst = m.map Prod.fst ++ [k] := by
  induction m with
  | nil => simp [dictInsert]
  | cons q r ih =>
    obtain ⟨k', v'⟩ := q
    by_cases h : k' = k
    · simp [dictGet, h] at hk
    · simp [dictGet, h] at hk
      simp [dictInsert, h, ih hk]

theorem dictGet_eq_none_iff {β : Type} {m : List (String × β)} {k : String} :
    dictGet m k = none ↔ k ∉ m.map Prod.fst := by
  induction m with
  | nil => simp [dictGet]
  | cons q r ih =>
    obtain ⟨k', v'⟩ := q
    by_cases h : k' = k
    · subst h
      simp [dictGet]
    · have : ¬k = k' := fun he => h he.symm
      simp [dictGet, h, ih, this]

/-- Membership in a posting list after one `addPost` step. -/
theorem addPost_mem {m : List (String × List Nat)} {w t : String} {k d : Nat} :
    d ∈ (dictGet (addPost m w k) t).getD [] ↔
      d ∈ (dictGet m t).getD [] ∨ (t = w ∧ d = k) := by
  unfold addPost
  cases hg : dictGet m w with
  | some l =>
    by_cases ht : t = w
    · subst ht
      rw [dictGet_dictInsert_self, hg]
      simp [mem_setAdd]
    · rw [dictGet_dictInsert_ne _ _ ht]
      simp [ht]
  | none =>
    by_cases ht : t = w
    · subst ht
      rw [dictGet_dictInsert_self, hg]
      simp [mem_setAdd]
    · rw [dictGet_dictInsert_ne _ _ ht]
      simp [ht]

/-- Membership after processing the whole word list of one document. -/
theorem wordsFold_mem {ws : List String} {m : List (String × List Nat)}
    {id : Nat} {t : String} {d : Nat} :
    d ∈ (dictGet (ws.foldl (fun m' w => addPost m' w id) m) t).getD [] ↔
      d ∈ (dictGet m t).getD [] ∨ (t ∈ ws ∧ d = id) := by
  induction ws generalizing m with
  | nil => simp
  | cons w ws ih =>
    rw [List.foldl_cons, ih, addPost_mem, List.mem_cons]
    tauto

/-- Membership after processing a list of documents. -/
theorem docsFold_mem {docs : List (Nat × String)} {m : List (String × List Nat)}
    {t : String} {d : Nat} :
    d ∈ (dictGet (docs.foldl
        (fun m kv => (tokens kv.2).foldl (fun m' w => addPost m' w kv.1) m) m) t).getD [] ↔
      d ∈ (dictGet m t).getD [] ∨ ∃ p ∈ docs, t ∈ tokens p.2 ∧ d = p.1 := by
  induction docs generalizing m with
  | nil => simp
  | cons q r ih =>
    rw [List.foldl_cons, ih, wordsFold_mem]
    constructor
    · rintro ((h | ⟨ht, rfl⟩) | ⟨p, hp, ht, rfl⟩)
      · exact Or.inl h
      · exact Or.inr ⟨q, by simp, ht, rfl⟩
      · exact Or.inr ⟨p, by simp [hp], ht, rfl⟩
    · rintro (h | ⟨p, hp, ht, rfl⟩)
      · exact Or.inl (Or.inl h)
      · rcases (by simpa using hp : p = q ∨ p ∈ r) with rfl | hp'
        · exact Or.inl (Or.inr ⟨ht, rfl⟩)
        · exact Or.inr ⟨p, hp', ht, rfl⟩

/-- Membership in the built index: `d` is in `t`'s posting list iff `t`
occurs in the text of a document with identifier `d`. -/
theorem build_mem {docs : List (Nat × String)} {t : String} {d : Nat} :
    d ∈ postingOf (build_inverted_index docs) t ↔
      ∃ tx, (d, tx) ∈ docs ∧ t ∈ tokens tx := by
  unfold build_inverted_index postingOf
  rw [show (⟨docs.foldl
      (fun m kv => (tokens kv.2).foldl (fun m' w => addPost m' w kv.1) m)
      []⟩ : InvertedIndex).inverted_index = docs.foldl
      (fun m kv => (tokens kv.2).foldl (fun m' w => addPost m' w kv.1) m) [] from rfl]
  rw [docsFold_mem]
  constructor
  · rintro (h | ⟨p, hp, ht, rfl⟩)
    · simp [dictGet] at h
    · exact ⟨p.2, by simpa using hp, ht⟩
  · rintro ⟨tx, htx, ht⟩
    exact Or.inr ⟨(d, tx), htx, ht, rfl⟩

/-- All posting lists in the accumulator stay duplicate-free. -/
theorem addPost_nodup {m : List (String × List Nat)} {w : String} {k : Nat}
    (h : ∀ p ∈ m, List.Nodup p.2) :
    ∀ p ∈ addPost m w k, List.Nodup p.2 := by
  unfold addPost
  cases hg : dictGet m w with
  | some l =>
    intro p hp
    rcases mem_dictInsert hp with rfl | hp'
    · exact nodup_setAdd (h _ (dictGet_mem hg)) k
    · exact h _ hp'
  | none =>
    intro p hp
    rcases mem_dictInsert hp with rfl | hp'
    · exact nodup_setAdd List.nodup_nil k
    · exact h _ hp'

theorem wordsFold_nodup {ws : List String} {m : List (String × List Nat)} {id : Nat}
    (h : ∀ p ∈ m, List.Nodup p.2) :
    ∀ p ∈ ws.foldl (fun m' w => addPost m' w id) m, List.Nodup p.2 := by
  induction ws generalizing m with
  | nil => exact h
  | cons w ws ih => exact ih (addPost_nodup h)

theorem build_nodup (docs : List (Nat × String)) :
    ∀ p ∈ (build_inverted_index docs).inverted_index, List.Nodup p.2 := by
  unfold build_inverted_index
  suffices h : ∀ m, (∀ p ∈ m, List.Nodup p.2) →
      ∀ p ∈ docs.foldl
        (fun m kv => (tokens kv.2).foldl (fun m' w => addPost m' w kv.1) m) m,
        List.Nodup p.2 by
    exact h [] (by simp)
  induction docs with
  | nil => exact fun m hm => hm
  | cons q r ih => exact fun m hm => ih _ (wordsFold_nodup hm)

end InvIdx

namespace InvIdx

/-! ### Tokenizer boundary lemmas and key sets -/

/-- Every character of every token produced by the splitter is a word
character (tokens are read only while `isWordChar` holds). -/
theorem splitAux_word_chars (l : List Char) :
    ∀ acc inSep, (∀ c ∈ acc, isWordChar c) →
      ∀ t ∈ splitAux l acc inSep, ∀ c ∈ t, isWordChar c := by
  induction l with
  | nil =>
    intro acc inSep hacc t ht c hc
    cases inSep with
    | true => simp [splitAux] at ht; simp [ht] at hc
    | false =>
      simp [splitAux] at ht
      subst ht
      exact hacc c (by simpa using hc)
  | cons a as ih =>
    intro acc inSep hacc t ht c hc
    by_cases hwa : isWordChar a
    · cases inSep with
      | true =>
        simp only [splitAux, hwa, if_pos, if_true] at ht
        exact ih [a] false (by simpa using hwa) t ht c hc
      | false =>
        simp only [splitAux, hwa, if_pos, if_false] at ht
        refine ih (a :: acc) false ?_ t ht c hc
        intro c' hc'
        rcases List.mem_cons.mp hc' with rfl | hc''
        · exact hwa
        · exact hacc c' hc''
    · cases inSep with
      | true =>
        simp only [splitAux, hwa, if_neg, if_true, if_false] at ht
        exact ih [] true (by simp) t ht c hc
      | false =>
        simp only [splitAux, hwa, if_neg, if_false] at ht
        rcases List.mem_cons.mp ht with rfl | ht'
        · exact hacc c (by simpa using hc)
        · exact ih [] true (by simp) t ht' c hc

/-- Every character of every term produced by `tokens` is a word character. -/
theorem tokens_word_chars {s : String} {t : String} (ht : t ∈ tokens s) :
    ∀ c ∈ t.data, isWordChar c := by
  unfold tokens at ht
  rcases List.mem_map.mp ht with ⟨piece, hp, rfl⟩
  exact splitAux_word_chars s.data [] false (by simp) piece hp

/-- The splitter emits an empty token when the input ends in a separator. -/
theorem last_sep_mem_splitAux (l : List Char) :
    ∀ acc b c, l.getLast? = some c → isWordChar c = false →
      [] ∈ splitAux l acc b := by
  induction l with
  | nil => intro acc b c hc _; simp at hc
  | cons a as ih =>
    intro acc b c hc hw
    cases as with
    | nil =>
      have ha : a = c := by simpa using hc
      subst ha
      cases b <;> simp [splitAux, hw]
    | cons a' as' =>
      have hc' : (a' :: as').getLast? = some c := by
        rwa [List.getLast?_cons_cons] at hc
      by_cases hwa : isWordChar a <;> cases b
      · simp only [splitAux, hwa, if_pos, Bool.false_eq_true, if_false]
        exact ih (a :: acc) false c hc' hw
      · simp only [splitAux, hwa, if_pos, if_true]
        exact ih [a] false c hc' hw
      · simp only [splitAux, hwa, if_neg, Bool.false_eq_true, if_false]
        exact List.mem_cons_of_mem _ (ih [] true c hc' hw)
      · simp only [splitAux, hwa, if_neg, if_true]
        exact ih [] true c hc' hw

/-- The empty token is produced for an empty text, a leading separator, or a
trailing separator. -/
theorem empty_mem_splitWords {l : List Char}
    (h : l = [] ∨ (l ≠ [] ∧ isWordChar (l.headD 'a') = false) ∨
      (l ≠ [] ∧ isWordChar (l.getLastD 'a') = false)) :
    [] ∈ splitWords l := by
  rcases h with rfl | ⟨hne, hh⟩ | ⟨hne, hl⟩
  · simp [splitWords, splitAux]
  · cases l with
    | nil => exact absurd rfl hne
    | cons a as =>
      have : isWordChar a = false := by simpa using hh
      simp [splitWords, splitAux, this]
  · obtain ⟨c, hc⟩ := Option.isSome_iff_exists.mp (List.getLast?_isSome.mpr hne)
    have hcd : l.getLastD 'a' = c := by
      rw [List.getLastD_eq_getLast?, hc]; rfl
    exact last_sep_mem_splitAux l [] false c hc (hcd ▸ hl)

/-- Keys stay duplicate-free through `addPost`. -/
theorem addPost_keys_nodup {m : List (String × List Nat)} {w : String} {k : Nat}
    (h : (m.map Prod.fst).Nodup) : ((addPost m w k).map Prod.fst).Nodup := by
  unfold addPost
  cases hg : dictGet m w with
  | some l => rw [keys_dictInsert_of_get_some hg]; exact h
  | none =>
    rw [keys_dictInsert_of_get_none hg]
    have hw : w ∉ m.map Prod.fst := dictGet_eq_none_iff.mp hg
    simp [List.nodup_append, h, hw]

theorem wordsFold_keys_nodup {ws : List String} {m : List (String × List Nat)}
    {id : Nat} (h : (m.map Prod.fst).Nodup) :
    ((ws.foldl (fun m' w => addPost m' w id) m).map Prod.fst).Nodup := by
  induction ws generalizing m with
  | nil => exact h
  | cons w ws ih => exact ih (addPost_keys_nodup h)

/-- The built index has duplicate-free keys (it models a Python dict). -/
theorem build_keys_nodup (docs : List (Nat × String)) :
    ((build_inverted_index docs).inverted_index.map Prod.fst).Nodup := by
  unfold build_inverted_index
  suffices h : ∀ m, (m.map Prod.fst).Nodup →
      ((docs.foldl
        (fun m kv => (tokens kv.2).foldl (fun m' w => addPost m' w kv.1) m) m).map
        Prod.fst).Nodup by
    exact h [] (by simp)
  induction docs with
  | nil => exact fun m hm => hm
  | cons q r ih => exact fun m hm => ih _ (wordsFold_keys_nodup hm)

/-! ### Claims about the index builder -/

/-- C9: in the built index, `d` is in term `t`'s posting list iff `t` occurs
in document `d`'s text under the `\W+` splitting, and no posting list
contains duplicate identifiers even when a term occurs several times in one
document. -/
theorem claim_C9_build_correct (docs : List (Nat × String))
    (_hkeys : (docs.map Prod.fst).Nodup) :
    (∀ t d, d ∈ postingOf (build_inverted_index docs) t ↔
        ∃ tx, (d, tx) ∈ docs ∧ t ∈ tokens tx) ∧
      (∀ t l, dictGet (build_inverted_index docs).inverted_index t = some l →
        l.Nodup) :=
  ⟨fun _ _ => build_mem, fun _ _ hl => build_nodup docs _ (dictGet_mem hl)⟩

/-- Witness for C9 on a concrete two-document corpus (one term repeats
within a document). -/
theorem claim_C9_witness :
    (([(123, "a_word b a_word"), (2, "b")].map Prod.fst).Nodup) ∧
      ((∀ t d, d ∈ postingOf (build_inverted_index [(123, "a_word b a_word"), (2, "b")]) t ↔
          ∃ tx, (d, tx) ∈ [(123, "a_word b a_word"), (2, "b")] ∧ t ∈ tokens tx) ∧
        (∀ t l,
          dictGet (build_inverted_index [(123, "a_word b a_word"), (2, "b")]).inverted_index t = some l →
          l.Nodup)) :=
  ⟨by decide, claim_C9_build_correct _ (by decide)⟩

/-- C10: a document whose text is empty or begins or ends with a non-word
character contributes its identifier to the posting list of the empty-string
term: empty tokens are indexed, not filtered out. -/
theorem claim_C10_empty_token_indexed (docs : List (Nat × String))
    (_hkeys : (docs.map Prod.fst).Nodup) (d : Nat) (text : String)
    (hdoc : (d, text) ∈ docs)
    (hb : text.data = [] ∨
      (text.data ≠ [] ∧ isWordChar (text.data.headD 'a') = false) ∨
      (text.data ≠ [] ∧ isWordChar (text.data.getLastD 'a') = false)) :
    ∃ l, dictGet (build_inverted_index docs).inverted_index "" = some l ∧ d ∈ l := by
  have hmem : ("" : String) ∈ tokens text :=
    List.mem_map.mpr ⟨[], empty_mem_splitWords hb, rfl⟩
  have hd : d ∈ postingOf (build_inverted_index docs) "" :=
    build_mem.mpr ⟨text, hdoc, hmem⟩
  unfold postingOf at hd
  cases hg : dictGet (build_inverted_index docs).inverted_index "" with
  | none => rw [hg] at hd; simp at hd
  | some l => rw [hg] at hd; exact ⟨l, rfl, by simpa using hd⟩

/-- Witness for C10: a document whose text ends in a space. -/
theorem claim_C10_witness :
    (([(7, "x ")].map Prod.fst).Nodup) ∧ ((7, "x ") ∈ [(7, "x ")]) ∧
      (("x ".data ≠ [] ∧ isWordChar ("x ".data.getLastD 'a') = false)) ∧
      (∃ l, dictGet (build_inverted_index [(7, "x ")]).inverted_index "" = some l ∧
        7 ∈ l) :=
  ⟨by decide, by decide, by decide,
    claim_C10_empty_token_indexed _ (by decide) 7 "x " (by decide)
      (Or.inr (Or.inr (by decide)))⟩

end InvIdx

namespace InvIdx

/-! ### Decimal rendering and parsing -/

theorem digitChar_isDigit {d : Nat} (h : d < 10) : (digitChar d).isDigit = true := by
  interval_cases d <;> decide

theorem digitChar_toNat {d : Nat} (h : d < 10) : (digitChar d).toNat = 48 + d := by
  interval_cases d <;> decide

theorem toDecAux_append (fuel : Nat) :
    ∀ n acc, toDecAux fuel n acc = toDecAux fuel n [] ++ acc := by
  induction fuel with
  | zero => intro n acc; simp [toDecAux]
  | succ fuel ih =>
    intro n acc
    by_cases h : n < 10
    · simp [toDecAux, h]
    · simp only [toDecAux, h, if_false]
      rw [ih (n / 10) (digitChar (n % 10) :: acc),
        ih (n / 10) [digitChar (n % 10)], List.append_assoc]
      rfl

theorem toDecAux_digits (fuel : Nat) :
    ∀ n, n < fuel → ∀ c ∈ toDecAux fuel n [], c.isDigit = true := by
  induction fuel with
  | zero => intro n h; omega
  | succ fuel ih =>
    intro n hn c hc
    by_cases h : n < 10
    · simp [toDecAux, h] at hc
      subst hc
      exact digitChar_isDigit h
    · simp only [toDecAux, h, if_false] at hc
      rw [toDecAux_append] at hc
      rcases List.mem_append.mp hc with hc' | hc'
      · exact ih (n / 10) (by omega) c hc'
      · have : c = digitChar (n % 10) := by simpa using hc'
        subst this
        exact digitChar_isDigit (Nat.mod_lt _ (by omega))

theorem toDecAux_ne_nil (fuel : Nat) :
    ∀ n, n < fuel → toDecAux fuel n [] ≠ [] := by
  induction fuel with
  | zero => intro n h; omega
  | succ fuel ih =>
    intro n hn
    by_cases h : n < 10
    · simp [toDecAux, h]
    · simp only [toDecAux, h, if_false]
      rw [toDecAux_append]
      simp

theorem toDecAux_val (fuel : Nat) :
    ∀ n a, n < fuel →
      (toDecAux fuel n []).foldl (fun a c => a * 10 + (c.toNat - 48)) a =
        a * 10 ^ (toDecAux fuel n []).length + n := by
  induction fuel with
  | zero => intro n a h; omega
  | succ fuel ih =>
    intro n a hn
    by_cases h : n < 10
    · simp [toDecAux, h, digitChar_toNat h]
    · simp only [toDecAux, h, if_false]
      rw [toDecAux_append, List.foldl_append, List.length_append]
      have hd : n / 10 < fuel := by omega
      rw [ih (n / 10) a hd]
      simp only [List.foldl_cons, List.foldl_nil, List.length_cons,
        List.length_nil]
      rw [digitChar_toNat (Nat.mod_lt _ (by omega))]
      have hmod : 48 + n % 10 - 48 = n % 10 := by omega
      rw [hmod, pow_succ]
      have := Nat.div_add_mod n 10
      ring_nf
      omega

theorem toDec_digits {n : Nat} : ∀ c ∈ toDec n, c.isDigit = true :=
  toDecAux_digits (n + 1) n (Nat.lt_succ_self n)

theorem toDec_ne_nil (n : Nat) : toDec n ≠ [] :=
  toDecAux_ne_nil (n + 1) n (Nat.lt_succ_self n)

theorem toDec_val (n : Nat) :
    (toDec n).foldl (fun a c => a * 10 + (c.toNat - 48)) 0 = n := by
  unfold toDec
  rw [toDecAux_val (n + 1) n 0 (Nat.lt_succ_self n)]
  simp

/-- `takeWhile`/`dropWhile` on a block that wholly satisfies the predicate
followed by a block whose head fails it. -/
theorem takeWhile_append_block {α : Type} {p : α → Bool} {xs ys : List α}
    (hx : ∀ c ∈ xs, p c = true) (hy : ∀ c, ys.head? = some c → p c = false) :
    (xs ++ ys).takeWhile p = xs ∧ (xs ++ ys).dropWhile p = ys := by
  induction xs with
  | nil =>
    cases ys with
    | nil => simp
    | cons y ys' =>
      have := hy y rfl
      simp [List.takeWhile_cons, List.dropWhile_cons, this]
  | cons x xs' ih =>
    have hpx := hx x (by simp)
    have ih' := ih (fun c hc => hx c (by simp [hc]))
    simp [List.takeWhile_cons, List.dropWhile_cons, hpx, ih'.1, ih'.2]

/-- Printing then parsing a natural number is the identity as long as the
following character is not a digit. -/
theorem parseNat_toDec {n : Nat} {rest : List Char}
    (hrest : ∀ c, rest.head? = some c → c.isDigit = false) :
    parseNat (toDec n ++ rest) = some (n, rest) := by
  obtain ⟨htake, hdrop⟩ := takeWhile_append_block (p := Char.isDigit)
    (fun c hc => toDec_digits c hc) hrest
  unfold parseNat
  rw [htake, hdrop]
  have hne : (toDec n).isEmpty = false := by
    cases h : toDec n with
    | nil => exact absurd h (toDec_ne_nil n)
    | cons a as => rfl
  simp only [hne, Bool.false_eq_true, if_false, toDec_val]

end InvIdx

namespace InvIdx

/-! ### JSON string and container round trips -/

theorem isWordChar_ne_quote {c : Char} (h : isWordChar c = true) :
    (c == '"') = false := by
  by_cases hc : c = '"'
  · subst hc; exact absurd h (by decide)
  · simpa using hc

theorem string_mk_data (k : String) : String.mk k.data = k := rfl

theorem expectChar_cons_self (c : Char) (r : List Char) :
    expectChar c (c :: r) = some r := by
  simp [expectChar]

theorem expectChar_cons_ne {c c' : Char} (h : c' ≠ c) (r : List Char) :
    expectChar c (c' :: r) = none := by
  simp [expectChar, h]

/-- Printing then parsing an escape-free string is the identity. -/
theorem parseStr_encodeStr {k : String} {rest : List Char}
    (hk : ∀ c ∈ k.data, isWordChar c = true) :
    parseStr (encodeStr k ++ rest) = some (k, rest) := by
  have hq : ∀ c ∈ k.data, (fun ch => !(ch == '"')) c = true := by
    intro c hc
    simp only [isWordChar_ne_quote (hk c hc)]
    rfl
  have hy : ∀ c, (('"' :: rest).head? = some c) → (fun ch => !(ch == '"')) c = false := by
    intro c hc
    simp only [List.head?_cons, Option.some.injEq] at hc
    subst hc
    rfl
  obtain ⟨htake, hdrop⟩ := takeWhile_append_block hq hy
  rw [show encodeStr k ++ rest = '"' :: (k.data ++ '"' :: rest) by simp [encodeStr]]
  unfold parseStr
  rw [expectChar_cons_self]
  simp only [hdrop, htake, string_mk_data]

/-- Each container element adds at least one character to the rendering of
the container's tail. -/
theorem encodeListRest_length {α : Type} (enc : α → List Char) (xs : List α) :
    xs.length ≤ (encodeListRest enc xs).length := by
  induction xs with
  | nil => simp [encodeListRest]
  | cons x xs ih => simp [encodeListRest]; omega

/-- The text following one element inside a container starts with a comma
or with the closing character. -/
theorem encodeListRest_head {α : Type} (enc : α → List Char) (xs : List α)
    (closeCh : Char) (rest : List Char) :
    (encodeListRest enc xs ++ closeCh :: rest).head? = some ',' ∨
      (encodeListRest enc xs ++ closeCh :: rest).head? = some closeCh := by
  cases xs with
  | nil => simp [encodeListRest]
  | cons x xs => simp [encodeListRest]

/-- Parsing the encoded tail of a container returns the remaining elements
and the text after the closing character. -/
theorem parseItems_encodeListRest {α : Type}
    {p : List Char → Option (α × List Char)} {enc : α → List Char}
    {closeCh : Char} (hcc : (',' : Char) ≠ closeCh) (xs : List α) :
    ∀ fuel acc rest, xs.length < fuel →
      (∀ x ∈ xs, ∀ r',
        (r'.head? = some ',' ∨ r'.head? = some closeCh) →
        p (enc x ++ r') = some (x, r')) →
      parseItems p closeCh fuel acc (encodeListRest enc xs ++ closeCh :: rest) =
        some (acc.reverse ++ xs, rest) := by
  induction xs with
  | nil =>
    intro fuel acc rest hfuel helem
    cases fuel with
    | zero => omega
    | succ fuel => simp [encodeListRest, parseItems]
  | cons x xs ih =>
    intro fuel acc rest hfuel helem
    cases fuel with
    | zero => simp at hfuel
    | succ fuel =>
      have hshape : encodeListRest enc (x :: xs) ++ closeCh :: rest =
          ',' :: ' ' :: (enc x ++ (encodeListRest enc xs ++ closeCh :: rest)) := by
        show (',' :: ' ' :: (enc x ++ encodeListRest enc xs)) ++ closeCh :: rest = _
        simp
      rw [hshape]
      show (if (',' : Char) = closeCh then some (acc.reverse, _) else
        if (',' : Char) = ',' then
          match expectChar ' ' (' ' :: (enc x ++ (encodeListRest enc xs ++ closeCh :: rest))) with
          | some r2 =>
            match p r2 with
            | some (y, r3) => parseItems p closeCh fuel (y :: acc) r3
            | none => none
          | none => none
        else none) = some (acc.reverse ++ x :: xs, rest)
      rw [if_neg hcc, if_pos rfl, expectChar_cons_self]
      have hel : p (enc x ++ (encodeListRest enc xs ++ closeCh :: rest)) =
          some (x, encodeListRest enc xs ++ closeCh :: rest) :=
        helem x (by simp) _ (encodeListRest_head enc xs closeCh rest)
      simp only [hel]
      rw [ih fuel (x :: acc) rest (by simpa using hfuel)
        (fun y hy => helem y (by simp [hy]))]
      simp

/-- Printing then parsing a whole container is the identity. -/
theorem parseContainer_encodeBody {α : Type}
    {p : List Char → Option (α × List Char)} {enc : α → List Char}
    {openCh closeCh : Char} (hcc : (',' : Char) ≠ closeCh)
    (xs : List α) (rest : List Char)
    (helem : ∀ x ∈ xs, ∀ r',
      (r'.head? = some ',' ∨ r'.head? = some closeCh) →
      p (enc x ++ r') = some (x, r'))
    (hhead : ∀ x ∈ xs, ∃ c cs, enc x = c :: cs ∧ c ≠ closeCh) :
    parseContainer p openCh closeCh (openCh :: encodeBody enc xs ++ closeCh :: rest) =
      some (xs, rest) := by
  cases xs with
  | nil =>
    show parseContainer p openCh closeCh (openCh :: closeCh :: rest) = _
    unfold parseContainer
    rw [expectChar_cons_self]
    simp
  | cons x xs =>
    obtain ⟨c, cs, hcx, hc⟩ := hhead x (by simp)
    have hbody : encodeBody enc (x :: xs) ++ closeCh :: rest =
        c :: (cs ++ (encodeListRest enc xs ++ closeCh :: rest)) := by
      show (enc x ++ encodeListRest enc xs) ++ closeCh :: rest = _
      rw [hcx]
      simp
    have hr3 : enc x ++ (encodeListRest enc xs ++ closeCh :: rest) =
        c :: (cs ++ (encodeListRest enc xs ++ closeCh :: rest)) := by
      rw [hcx]
      simp
    have hel : p (c :: (cs ++ (encodeListRest enc xs ++ closeCh :: rest))) =
        some (x, encodeListRest enc xs ++ closeCh :: rest) := by
      rw [← hr3]
      exact helem x (by simp) _ (encodeListRest_head enc xs closeCh rest)
    rw [List.cons_append, hbody]
    unfold parseContainer
    rw [expectChar_cons_self]
    show (if c = closeCh then some ([], cs ++ (encodeListRest enc xs ++ closeCh :: rest))
      else
        match p (c :: (cs ++ (encodeListRest enc xs ++ closeCh :: rest))) with
        | some (y, r3) => parseItems p closeCh (r3.length + 1) [y] r3
        | none => none) = some (x :: xs, rest)
    rw [if_neg hc]
    simp only [hel]
    have hlen : xs.length < (encodeListRest enc xs ++ closeCh :: rest).length + 1 := by
      have := encodeListRest_length enc xs
      rw [List.length_append]
      simp only [List.length_cons]
      omega
    rw [parseItems_encodeListRest hcc xs _ [x] rest hlen
      (fun y hy => helem y (by simp [hy]))]
    simp

end InvIdx

namespace InvIdx

/-! ### Pair, entry, header and dict round trips -/

theorem toDec_head (n : Nat) :
    ∃ c cs, toDec n = c :: cs ∧ c.isDigit = true := by
  cases h : toDec n with
  | nil => exact absurd h (toDec_ne_nil n)
  | cons c cs =>
    refine ⟨c, cs, rfl, ?_⟩
    exact toDec_digits c (by rw [h]; simp)

theorem isDigit_ne_rbracket {c : Char} (h : c.isDigit = true) : c ≠ ']' := by
  intro hc
  subst hc
  exact absurd h (by decide)

/-- Printing then parsing one header pair is the identity. -/
theorem parsePair_encodePair {kv : String × Nat} {rest : List Char}
    (hk : ∀ c ∈ kv.1.data, isWordChar c = true) :
    parsePair (encodePair kv ++ rest) = some (kv, rest) := by
  have hd : ∀ c, ((']' :: rest).head? = some c) → c.isDigit = false := by
    intro c hc
    simp only [List.head?_cons, Option.some.injEq] at hc
    subst hc
    rfl
  rw [show encodePair kv ++ rest =
    '[' :: (encodeStr kv.1 ++ (',' :: ' ' :: (toDec kv.2 ++ (']' :: rest)))) by
      simp [encodePair]]
  unfold parsePair
  rw [expectChar_cons_self]
  simp only [parseStr_encodeStr hk, expectChar_cons_self, parseNat_toDec hd]

/-- Printing then parsing an integer array is the identity. -/
theorem parseNatList_encodeArr (ids : List Nat) (rest : List Char) :
    parseContainer parseNat '[' ']' (encodeArr toDec ids ++ rest) =
      some (ids, rest) := by
  rw [show encodeArr toDec ids ++ rest =
    '[' :: encodeBody toDec ids ++ ']' :: rest by simp [encodeArr]]
  refine parseContainer_encodeBody (by decide) ids rest ?_ ?_
  · intro i _ r' hr'
    refine parseNat_toDec ?_
    intro c hc
    rcases hr' with h | h <;> rw [h] at hc <;>
      simp only [Option.some.injEq] at hc <;> subst hc <;> rfl
  · intro i _
    obtain ⟨c, cs, hcx, hdig⟩ := toDec_head i
    exact ⟨c, cs, hcx, isDigit_ne_rbracket hdig⟩

/-- Printing then parsing one dict entry is the identity. -/
theorem parseEntry_encodeEntry {kv : String × List Nat} {rest : List Char}
    (hk : ∀ c ∈ kv.1.data, isWordChar c = true) :
    parseEntry (encodeEntry kv ++ rest) = some (kv, rest) := by
  rw [show encodeEntry kv ++ rest =
    encodeStr kv.1 ++ (':' :: ' ' :: (encodeArr toDec kv.2 ++ rest)) by
      simp [encodeEntry]]
  unfold parseEntry
  simp only [parseStr_encodeStr hk, expectChar_cons_self,
    parseNatList_encodeArr]

/-- `json.loads` of an encoded header recovers the pair list. -/
theorem parseHeaderFull_encodeArr (pairs : List (String × Nat))
    (hk : ∀ kv ∈ pairs, ∀ c ∈ kv.1.data, isWordChar c = true) :
    parseHeaderFull (encodeArr encodePair pairs) = some pairs := by
  unfold parseHeaderFull
  rw [show encodeArr encodePair pairs =
    '[' :: encodeBody encodePair pairs ++ ']' :: [] by simp [encodeArr]]
  rw [parseContainer_encodeBody (by decide) pairs []
    (fun kv hkv r' _ => parsePair_encodePair (hk kv hkv))
    (fun kv _ => ⟨'[', encodeStr kv.1 ++ ',' :: ' ' :: (toDec kv.2 ++ [']']),
      by simp [encodePair], by decide⟩)]

/-- `dictInsert` with a fresh key appends. -/
theorem dictInsert_eq_append {β : Type} {m : List (String × β)} {k : String}
    (h : dictGet m k = none) (v : β) : dictInsert m k v = m ++ [(k, v)] := by
  induction m with
  | nil => simp [dictInsert]
  | cons q r ih =>
    obtain ⟨k', v'⟩ := q
    by_cases hk : k' = k
    · simp [dictGet, hk] at h
    · simp [dictGet, hk] at h
      simp [dictInsert, hk, ih h]

/-- Rebuilding a dict from entries with unique keys reproduces them. -/
theorem foldl_dictInsert_eq {β : Type} (es : List (String × β)) :
    ∀ acc : List (String × β), ((acc ++ es).map Prod.fst).Nodup →
      es.foldl (fun m e => dictInsert m e.1 e.2) acc = acc ++ es := by
  induction es with
  | nil => intro acc _; simp
  | cons e es ih =>
    intro acc hnd
    have hknd := hnd
    rw [List.map_append] at hknd
    obtain ⟨-, -, hdisj⟩ := List.nodup_append.mp hknd
    have hfresh : dictGet acc e.1 = none := by
      rw [dictGet_eq_none_iff]
      intro hmem
      exact hdisj hmem (by simp)
    rw [List.foldl_cons]
    show es.foldl (fun m e => dictInsert m e.1 e.2) (dictInsert acc e.1 e.2) = _
    rw [dictInsert_eq_append hfresh]
    rw [ih (acc ++ [(e.1, e.2)]) (by
      rw [show (acc ++ [(e.1, e.2)]) ++ es = acc ++ e :: es by simp]
      exact hnd)]
    simp

/-- `json.load` of an encoded dict with unique word-character keys
recovers the entries. -/
theorem parseDictFull_encodeDict (entries : List (String × List Nat))
    (hk : ∀ kv ∈ entries, ∀ c ∈ kv.1.data, isWordChar c = true)
    (hnd : (entries.map Prod.fst).Nodup) :
    parseDictFull (encodeDict entries) = some entries := by
  unfold parseDictFull
  rw [show encodeDict entries =
    '{' :: encodeBody encodeEntry entries ++ '}' :: [] by simp [encodeDict]]
  rw [parseContainer_encodeBody (by decide) entries []
    (fun kv hkv r' _ => parseEntry_encodeEntry (hk kv hkv))
    (fun kv _ => ⟨'"', kv.1.data ++ '"' :: ':' :: ' ' :: encodeArr toDec kv.2,
      by simp [encodeEntry, encodeStr], by decide⟩)]
  show some (entries.foldl (fun m e => dictInsert m e.1 e.2) []) = some entries
  rw [foldl_dictInsert_eq entries [] (by simpa using hnd)]
  simp

/-! ### Byte-level struct lemmas -/

theorem bytesToStr_strToBytes (l : List Char) : bytesToStr (strToBytes l) = l := by
  simp [bytesToStr, strToBytes, List.map_map, Function.comp_def, Char.ofNat_toNat]

theorem strToBytes_length (l : List Char) : (strToBytes l).length = l.length := by
  simp [strToBytes]

theorem u32dec_u32le {n : Nat} (h : n < 4294967296) :
    u32dec (n % 256) (n / 256 % 256) (n / 65536 % 256) (n / 16777216 % 256) = n := by
  unfold u32dec
  omega

theorem flat16_length (ids : List Nat) : (flat16 ids).length = 2 * ids.length := by
  induction ids with
  | nil => rfl
  | cons i is ih =>
    show (u16le i ++ flat16 is).length = 2 * (is.length + 1)
    rw [List.length_append, ih]
    simp [u16le]
    omega

theorem dec16_flat16 (ids : List Nat) : dec16 (flat16 ids) = ids := by
  induction ids with
  | nil => rfl
  | cons i is ih =>
    show dec16 (u16le i ++ flat16 is) = i :: is
    show (i % 256 + 256 * (i / 256)) :: dec16 (flat16 is) = i :: is
    rw [ih]
    congr 1
    omega

theorem flatten_map_u16le (entries : List (String × List Nat)) :
    (((entries.map (fun kv => kv.2)).flatten).map u16le).flatten =
      (entries.map (fun kv => flat16 kv.2)).flatten := by
  induction entries with
  | nil => rfl
  | cons kv es ih =>
    simp only [List.map_cons, List.flatten_cons, List.map_append,
      List.flatten_append, ih]
    rfl

/-- Reading back the id segments of every term reproduces the dict. -/
theorem readIds_ok (entries : List (String × List Nat)) :
    ∀ acc, readIds acc (entries.map (fun kv => (kv.1, kv.2.length)))
        ((entries.map (fun kv => flat16 kv.2)).flatten) =
      .ok (entries.foldl (fun m kv => dictInsert m kv.1 kv.2) acc) := by
  induction entries with
  | nil => intro acc; rfl
  | cons kv es ih =>
    intro acc
    show readIds acc ((kv.1, kv.2.length) :: es.map (fun kv => (kv.1, kv.2.length)))
      (flat16 kv.2 ++ (es.map (fun kv => flat16 kv.2)).flatten) = _
    unfold readIds
    have hlen : 2 * kv.2.length ≤
        (flat16 kv.2 ++ (es.map (fun kv => flat16 kv.2)).flatten).length := by
      rw [List.length_append, flat16_length]
      omega
    rw [if_pos hlen]
    rw [show 2 * kv.2.length = (flat16 kv.2).length from (flat16_length _).symm,
      List.take_left, List.drop_left, dec16_flat16]
    exact ih (dictInsert acc kv.1 kv.2)

end InvIdx

namespace InvIdx

/-! ### Builder key and id invariants -/

theorem addPost_keys_prop {P : String → Prop} {m : List (String × List Nat)}
    {w : String} {k : Nat} (hm : ∀ p ∈ m, P p.1) (hw : P w) :
    ∀ p ∈ addPost m w k, P p.1 := by
  unfold addPost
  cases dictGet m w with
  | some l =>
    intro p hp
    rcases mem_dictInsert hp with rfl | hp'
    · exact hw
    · exact hm _ hp'
  | none =>
    intro p hp
    rcases mem_dictInsert hp with rfl | hp'
    · exact hw
    · exact hm _ hp'

theorem wordsFold_keys_prop {P : String → Prop} {ws : List String}
    {id : Nat} : ∀ {m : List (String × List Nat)}, (∀ p ∈ m, P p.1) →
    (∀ w ∈ ws, P w) →
    ∀ p ∈ ws.foldl (fun m' w => addPost m' w id) m, P p.1 := by
  induction ws with
  | nil => intro m hm _; exact hm
  | cons w ws ih =>
    intro m hm hws
    exact ih (addPost_keys_prop hm (hws w (by simp)))
      (fun w' hw' => hws w' (by simp [hw']))

/-- Every key of the built index is a token, hence made of word chars. -/
theorem build_keys_word_chars (docs : List (Nat × String)) :
    ∀ p ∈ (build_inverted_index docs).inverted_index,
      ∀ c ∈ p.1.data, isWordChar c = true := by
  unfold build_inverted_index
  suffices h : ∀ m, (∀ p ∈ m, ∀ c ∈ (p.1 : String).data, isWordChar c = true) →
      ∀ p ∈ docs.foldl
        (fun m kv => (tokens kv.2).foldl (fun m' w => addPost m' w kv.1) m) m,
        ∀ c ∈ (p.1 : String).data, isWordChar c = true by
    exact h [] (by simp)
  induction docs with
  | nil => exact fun m hm => hm
  | cons q r ih =>
    intro m hm
    exact ih _ (wordsFold_keys_prop hm (fun w hw => tokens_word_chars hw))

theorem nodup_keys_dictGet {β : Type} {m : List (String × β)}
    (hnd : (m.map Prod.fst).Nodup) {k : String} {v : β} (h : (k, v) ∈ m) :
    dictGet m k = some v := by
  induction m with
  | nil => simp at h
  | cons q r ih =>
    obtain ⟨k', v'⟩ := q
    rw [List.map_cons, List.nodup_cons] at hnd
    rcases List.mem_cons.mp h with heq | hmem
    · injection heq with h1 h2
      subst h1
      subst h2
      simp [dictGet]
    · have hk : ¬k' = k := by
        intro hkk
        subst hkk
        exact hnd.1 (List.mem_map.mpr ⟨(k', v), hmem, rfl⟩)
      rw [show dictGet ((k', v') :: r) k =
        if k' = k then some v' else dictGet r k from rfl, if_neg hk]
      exact ih hnd.2 hmem

/-- When every document identifier is below 65536, so is every posting-list
entry of the built index. -/
theorem build_ids_lt (docs : List (Nat × String))
    (hids : ∀ kv ∈ docs, kv.1 < 65536) :
    ∀ p ∈ (build_inverted_index docs).inverted_index, ∀ i ∈ p.2, i < 65536 := by
  intro p hp i hi
  have hget : dictGet (build_inverted_index docs).inverted_index p.1 = some p.2 :=
    nodup_keys_dictGet (build_keys_nodup docs) (by simpa using hp)
  have hip : i ∈ postingOf (build_inverted_index docs) p.1 := by
    unfold postingOf
    rw [hget]
    simpa using hi
  obtain ⟨tx, htx, -⟩ := build_mem.mp hip
  exact hids (i, tx) htx

/-! ### Strategy-level round trips -/

/-- One unfolding step of `loadStruct` on a stream of at least four bytes. -/
theorem loadStruct_cons (b0 b1 b2 b3 : Nat) (rest : List Nat) :
    loadStruct (b0 :: b1 :: b2 :: b3 :: rest) =
      if u32dec b0 b1 b2 b3 ≤ rest.length then
        match parseHeaderFull (bytesToStr (rest.take (u32dec b0 b1 b2 b3))) with
        | some pairs =>
          (readIds [] pairs (rest.drop (u32dec b0 b1 b2 b3))).map
            (fun m => (⟨m⟩ : InvertedIndex))
        | none => .error .jsonError
      else .error .structError := rfl

/-- Struct strategy: loading a successful dump reproduces the entries. -/
theorem loadStruct_dumpStruct {entries : List (String × List Nat)}
    (hk : ∀ kv ∈ entries, ∀ c ∈ kv.1.data, isWordChar c = true)
    (hnd : (entries.map Prod.fst).Nodup)
    (hids : ∀ kv ∈ entries, ∀ i ∈ kv.2, i < 65536)
    (hsize : (strToBytes (encodeArr encodePair
      (entries.map (fun kv => (kv.1, kv.2.length))))).length < 4294967296) :
    (dumpStruct entries).bind loadStruct = .ok ⟨entries⟩ := by
  have hall : ((entries.map (fun kv => kv.2)).flatten).all
      (fun i => i < 65536) = true := by
    rw [List.all_eq_true]
    intro i hi
    rw [List.mem_flatten] at hi
    obtain ⟨l, hl, hil⟩ := hi
    rw [List.mem_map] at hl
    obtain ⟨kv, hkv, rfl⟩ := hl
    exact decide_eq_true (hids kv hkv i hil)
  show (if (strToBytes (encodeArr encodePair
      (entries.map (fun kv => (kv.1, kv.2.length))))).length < 4294967296 then
      if ((entries.map (fun kv => kv.2)).flatten).all (fun i => i < 65536) then
        Except.ok (u32le (strToBytes (encodeArr encodePair
          (entries.map (fun kv => (kv.1, kv.2.length))))).length ++
          strToBytes (encodeArr encodePair
            (entries.map (fun kv => (kv.1, kv.2.length)))) ++
          (((entries.map (fun kv => kv.2)).flatten).map u16le).flatten)
      else Except.error Err.structError
    else Except.error Err.structError).bind loadStruct = Except.ok ⟨entries⟩
  rw [if_pos hsize, if_pos hall]
  show loadStruct (u32le (strToBytes (encodeArr encodePair
      (entries.map (fun kv => (kv.1, kv.2.length))))).length ++
    strToBytes (encodeArr encodePair
      (entries.map (fun kv => (kv.1, kv.2.length)))) ++
    (((entries.map (fun kv => kv.2)).flatten).map u16le).flatten) =
    Except.ok ⟨entries⟩
  rw [show ∀ X : List Nat, u32le (strToBytes (encodeArr encodePair
      (entries.map (fun kv => (kv.1, kv.2.length))))).length ++
      strToBytes (encodeArr encodePair
        (entries.map (fun kv => (kv.1, kv.2.length)))) ++ X =
      ((strToBytes (encodeArr encodePair
        (entries.map (fun kv => (kv.1, kv.2.length))))).length % 256) ::
      ((strToBytes (encodeArr encodePair
        (entries.map (fun kv => (kv.1, kv.2.length))))).length / 256 % 256) ::
      ((strToBytes (encodeArr encodePair
        (entries.map (fun kv => (kv.1, kv.2.length))))).length / 65536 % 256) ::
      ((strToBytes (encodeArr encodePair
        (entries.map (fun kv => (kv.1, kv.2.length))))).length / 16777216 % 256) ::
      (strToBytes (encodeArr encodePair
        (entries.map (fun kv => (kv.1, kv.2.length)))) ++ X)
      from fun X => by simp [u32le]]
  rw [loadStruct_cons, u32dec_u32le hsize]
  have hlen : (strToBytes (encodeArr encodePair
      (entries.map (fun kv => (kv.1, kv.2.length))))).length ≤
      (strToBytes (encodeArr encodePair
        (entries.map (fun kv => (kv.1, kv.2.length)))) ++
        (((entries.map (fun kv => kv.2)).flatten).map u16le).flatten).length := by
    simp
  rw [if_pos hlen, List.take_left, List.drop_left, bytesToStr_strToBytes]
  rw [parseHeaderFull_encodeArr (entries.map (fun kv => (kv.1, kv.2.length)))
    (by
      intro kv' hkv' c hc
      rw [List.mem_map] at hkv'
      obtain ⟨kv, hkv, rfl⟩ := hkv'
      exact hk kv hkv c hc)]
  rw [flatten_map_u16le entries]
  show Except.map (fun m => (⟨m⟩ : InvertedIndex))
    (readIds [] (entries.map (fun kv => (kv.1, kv.2.length)))
      ((entries.map (fun kv => flat16 kv.2)).flatten)) = Except.ok ⟨entries⟩
  rw [readIds_ok entries []]
  rw [foldl_dictInsert_eq entries [] (by simpa using hnd)]
  rfl

/-- JSON strategy: loading a dump reproduces the entries. -/
theorem loadJson_dumpJson {entries : List (String × List Nat)}
    (hk : ∀ kv ∈ entries, ∀ c ∈ kv.1.data, isWordChar c = true)
    (hnd : (entries.map Prod.fst).Nodup) :
    (dumpJson entries).bind loadJson = .ok ⟨entries⟩ := by
  show loadJson (strToBytes (encodeDict entries)) = _
  unfold loadJson
  rw [bytesToStr_strToBytes, parseDictFull_encodeDict entries hk hnd]

end InvIdx

namespace InvIdx

/-! ### Dispatch equations and error lemmas -/

theorem dump_json_eq (ii : InvertedIndex) :
    dump ii "json" = dumpJson ii.inverted_index := rfl

theorem dump_struct_eq (ii : InvertedIndex) :
    dump ii "struct" = dumpStruct ii.inverted_index := rfl

theorem load_json_eq (bs : List Nat) : load bs "json" = loadJson bs := rfl

theorem load_struct_eq (bs : List Nat) : load bs "struct" = loadStruct bs := rfl

theorem dumpStruct_eq (entries : List (String × List Nat)) :
    dumpStruct entries =
      if (strToBytes (encodeArr encodePair
          (entries.map (fun kv => (kv.1, kv.2.length))))).length < 4294967296 then
        if ((entries.map (fun kv => kv.2)).flatten).all (fun i => i < 65536) then
          .ok (u32le (strToBytes (encodeArr encodePair
              (entries.map (fun kv => (kv.1, kv.2.length))))).length ++
            strToBytes (encodeArr encodePair
              (entries.map (fun kv => (kv.1, kv.2.length)))) ++
            (((entries.map (fun kv => kv.2)).flatten).map u16le).flatten)
        else .error .structError
      else .error .structError := rfl

/-- A body shorter than the header's counts demand makes the id loop fail. -/
theorem readIds_short (pairs : List (String × Nat)) :
    ∀ (body : List Nat) (acc : List (String × List Nat)),
      body.length < 2 * (pairs.map Prod.snd).sum →
      readIds acc pairs body = .error .structError := by
  induction pairs with
  | nil => intro body acc h; simp at h
  | cons p ps ih =>
    obtain ⟨k, c⟩ := p
    intro body acc h
    unfold readIds
    by_cases hc : 2 * c ≤ body.length
    · rw [if_pos hc]
      refine ih _ _ ?_
      rw [List.length_drop]
      simp only [List.map_cons, List.sum_cons] at h
      omega
    · rw [if_neg hc]

/-! ### Claims about the codec -/

/-- C1 (amended): a builder-built index round-trips through dump/load for
both strategies provided every document identifier fits in 16 bits and the
encoded struct header is shorter than 2^32 bytes (both bounds are demanded
by the struct format's `pack` calls; the json strategy needs neither). -/
theorem claim_C1_roundtrip (docs : List (Nat × String))
    (hids : ∀ kv ∈ docs, kv.1 < 65536)
    (hsize : (strToBytes (encodeArr encodePair
      ((build_inverted_index docs).inverted_index.map
        (fun kv => (kv.1, kv.2.length))))).length < 4294967296) :
    ((dump (build_inverted_index docs) "json").bind
        (fun bs => load bs "json") = .ok (build_inverted_index docs)) ∧
    ((dump (build_inverted_index docs) "struct").bind
        (fun bs => load bs "struct") = .ok (build_inverted_index docs)) := by
  have hk := build_keys_word_chars docs
  have hnd := build_keys_nodup docs
  constructor
  · rw [dump_json_eq]
    exact loadJson_dumpJson hk hnd
  · rw [dump_struct_eq]
    exact loadStruct_dumpStruct hk hnd (build_ids_lt docs hids) hsize

/-- C1 counterexample: for the builder output on a document whose
identifier needs more than 16 bits, the struct dump raises `struct.error`
and produces no complete file — the claim's unconditional round trip fails
for the struct strategy. -/
theorem claim_C1_counterexample :
    dump (build_inverted_index [(70000, "a")]) "struct" =
      .error Err.structError := rfl

/-- Witness for C1 at a concrete two-document corpus. -/
theorem claim_C1_witness :
    (∀ kv ∈ ([(1, "a b"), (2, "b")] : List (Nat × String)), kv.1 < 65536) ∧
    ((dump (build_inverted_index [(1, "a b"), (2, "b")]) "json").bind
        (fun bs => load bs "json") =
      .ok (build_inverted_index [(1, "a b"), (2, "b")])) ∧
    ((dump (build_inverted_index [(1, "a b"), (2, "b")]) "struct").bind
        (fun bs => load bs "struct") =
      .ok (build_inverted_index [(1, "a b"), (2, "b")])) :=
  ⟨by decide, (claim_C1_roundtrip _ (by decide) (by decide)).1,
    (claim_C1_roundtrip _ (by decide) (by decide)).2⟩

/-- C5: serializing any index that contains a document identifier of at
least 65536 with the struct strategy raises `struct.error` (the
non-serializable-value failure class) instead of silently wrapping or
truncating the identifier to 16 bits. -/
theorem claim_C5_struct_range (ii : InvertedIndex)
    (h : ∃ kv ∈ ii.inverted_index, ∃ i ∈ kv.2, 65536 ≤ i) :
    dump ii "struct" = .error Err.structError := by
  obtain ⟨kv, hkv, i, hi, hbound⟩ := h
  rw [dump_struct_eq, dumpStruct_eq]
  have hall : ((ii.inverted_index.map (fun kv => kv.2)).flatten).all
      (fun j => j < 65536) = false := by
    cases hb : ((ii.inverted_index.map (fun kv => kv.2)).flatten).all
        (fun j => j < 65536) with
    | false => rfl
    | true =>
      exfalso
      rw [List.all_eq_true] at hb
      have hv := hb i (List.mem_flatten.mpr
        ⟨kv.2, List.mem_map.mpr ⟨kv, hkv, rfl⟩, hi⟩)
      simp only [decide_eq_true_eq] at hv
      omega
  split_ifs with h1 h2
  · rw [hall] at h2
    exact absurd h2 (by simp)
  · rfl
  · rfl

/-- Witness for C5: an index with the single posting 70000. -/
theorem claim_C5_witness :
    (∃ kv ∈ ([("a", [70000])] : List (String × List Nat)), ∃ i ∈ kv.2, 65536 ≤ i) ∧
    dump ⟨[("a", [70000])]⟩ "struct" = .error Err.structError :=
  ⟨by decide, claim_C5_struct_range ⟨[("a", [70000])]⟩ (by decide)⟩

/-- C6: a struct stream with fewer bytes than the declared header length,
or — once the header decodes — fewer body bytes than the per-term counts
demand, makes the struct load fail with `struct.error` rather than return a
partial or empty index. -/
theorem claim_C6_truncated (b0 b1 b2 b3 : Nat) (rest : List Nat)
    (pairs : List (String × Nat)) :
    (rest.length < u32dec b0 b1 b2 b3 →
      loadStruct (b0 :: b1 :: b2 :: b3 :: rest) = .error Err.structError) ∧
    (u32dec b0 b1 b2 b3 ≤ rest.length →
      parseHeaderFull (bytesToStr (rest.take (u32dec b0 b1 b2 b3))) = some pairs →
      (rest.drop (u32dec b0 b1 b2 b3)).length < 2 * (pairs.map Prod.snd).sum →
      loadStruct (b0 :: b1 :: b2 :: b3 :: rest) = .error Err.structError) := by
  constructor
  · intro h
    rw [loadStruct_cons, if_neg (by omega)]
  · intro hle hparse hshort
    rw [loadStruct_cons, if_pos hle, hparse]
    show Except.map (fun m => (⟨m⟩ : InvertedIndex))
      (readIds [] pairs (rest.drop (u32dec b0 b1 b2 b3))) = _
    rw [readIds_short pairs _ [] hshort]
    rfl

/-- Witness for C6: a valid one-term struct file truncated right after its
header (the two id bytes are missing). -/
theorem claim_C6_witness :
    (u32dec 10 0 0 0 ≤ (strToBytes (encodeArr encodePair [("a", 1)])).length) ∧
    (parseHeaderFull (bytesToStr ((strToBytes (encodeArr encodePair
      [("a", 1)])).take (u32dec 10 0 0 0))) = some [("a", 1)]) ∧
    (((strToBytes (encodeArr encodePair [("a", 1)])).drop
      (u32dec 10 0 0 0)).length < 2 * (([("a", 1)].map Prod.snd).sum)) ∧
    loadStruct (10 :: 0 :: 0 :: 0 :: strToBytes (encodeArr encodePair [("a", 1)])) =
      .error Err.structError :=
  ⟨by decide, by decide, by decide,
    (claim_C6_truncated 10 0 0 0 (strToBytes (encodeArr encodePair [("a", 1)]))
      [("a", 1)]).2 (by decide) (by decide) (by decide)⟩

/-! ### Claims about the file-level error policy -/

/-- C3 counterexample: loading from a missing source path returns a normal
(`ok`) empty index after printing to stderr — the NotFound condition is NOT
surfaced to the caller as a failure outcome. -/
theorem claim_C3_counterexample :
    (load_file "wikipedia_inverted.index" none "struct").1 =
      Except.ok (⟨[]⟩ : InvertedIndex) ∧
    (load_file "wikipedia_inverted.index" none "struct").2 =
      ["wikipedia_inverted.index not found!"] := ⟨rfl, rfl⟩

/-- C3 (amended): when the source path does not exist, `load` prints
`"<filepath> not found!"` to stderr and successfully returns an empty
index, for either strategy: the NotFound condition is masked as an
empty-index success rather than surfaced as a failure outcome. -/
theorem claim_C3_missing_masked (filepath strategy : String) :
    load_file filepath none strategy =
      (Except.ok (⟨[]⟩ : InvertedIndex), [filepath ++ " not found!"]) := rfl

/-- C4 counterexample: dumping to a destination that cannot be opened
returns normally (`ok`, nothing written) after printing to stderr — the
write failure is not reported to the caller. -/
theorem claim_C4_counterexample :
    (dump_file false ⟨[("a", [1])]⟩ "json").1 = Except.ok none ∧
    (dump_file false ⟨[("a", [1])]⟩ "json").2 = ["Input valid filepath"] :=
  ⟨rfl, rfl⟩

/-- C4 (amended): for either real strategy, when the destination cannot be
opened the `except (FileNotFoundError, TypeError)` clause prints
`"Input valid filepath"` and returns success with the index discarded — a
print-and-continue policy, not a reported failure. -/
theorem claim_C4_dump_failure_swallowed (ii : InvertedIndex) (strategy : String)
    (h : strategy = "json" ∨ strategy = "struct") :
    dump_file false ii strategy = (Except.ok none, ["Input valid filepath"]) := by
  unfold dump_file
  rw [if_pos h]
  rfl

/-- Witness for C4 at a concrete index and the json strategy. -/
theorem claim_C4_witness :
    (("json" : String) = "json" ∨ ("json" : String) = "struct") ∧
    dump_file false ⟨[("b", [2])]⟩ "json" =
      (Except.ok none, ["Input valid filepath"]) :=
  ⟨Or.inl rfl, claim_C4_dump_failure_swallowed ⟨[("b", [2])]⟩ "json" (Or.inl rfl)⟩

end InvIdx

